import Mathlib

/-!
Shallow embedding of the validation engine in `src/validation/validate.ts`
(the `validate` entry point, `createAsserter`, and `applyRulesRecursively`),
together with proofs of the specified properties.

Modelling conventions:
* JavaScript values are modelled by the inductive `Value`; objects and the
  error record are association lists in insertion order (JS string keys
  enumerate in insertion order, and every key the engine creates is a
  non-numeric path string).
* A leaf rule is modelled by its observable behaviour: the ordered list of
  messages recorded through the assert primitive during its run
  (`RuleOutcome.ok msgs`, the local accumulator of `createAsserter`), or an
  exception thrown outside the assert channel (`RuleOutcome.exn e`).
* The cooperative single-threaded `Promise.all` fan-out is modelled by the
  canonical sequential interleaving (children run in list order); rejection
  of any child rejects the parent, as `Promise.all` does.
-/

/-- JavaScript values relevant to the engine: `null`, `undefined`, booleans,
numbers (the engine only ever stringifies array indices, so integers
suffice), strings, arrays, plain objects (own string keys in insertion
order), and function values. `vnative name` stands for a native function
such as an inherited prototype method; the engine never inspects functions
beyond the `typeof`/`Array.isArray` dispatch checks (`typeof` of a function
is `'function'`, not `'object'`), so one opaque constructor suffices. -/
inductive Value where
  | vnull
  | vundefined
  | vbool (b : Bool)
  | vnum (n : Int)
  | vstr (s : String)
  | varr (elems : List Value)
  | vobj (fields : List (String × Value))
  | vnative (name : String)

/-- Observable behaviour of one leaf-rule invocation: either it settles,
having recorded `msgs` through its assert primitive (in call order, the
local `errors` array of `createAsserter`), or it throws/rejects outside the
assert channel with exception `e`. -/
inductive RuleOutcome where
  | ok (msgs : List String)
  | exn (e : String)

/-- A leaf rule `(value, assert) => ...`, reduced to its observable
behaviour on each input. -/
abbrev Rule : Type := Value → RuleOutcome

/-- A rules set: a leaf rule function, an array of rules sets, or a plain
object whose keys map to nested rules sets (an `EachRule` is an object
containing the reserved key `$each`, exactly as in the source). -/
inductive RulesSet where
  | func (r : Rule)
  | rarr (sets : List RulesSet)
  | robj (fields : List (String × RulesSet))

/-- The reserved `$each` marker key. -/
def eachKey : String := "$each"

/-- The error record `Record<string, string[]>`: association list from path
to its ordered message list, in key-insertion order. -/
abbrev ErrorMap : Type := List (String × List String)

/-- One call of the assert primitive from `createAsserter`: it pushes `msg`
onto the local accumulator exactly when `cond` is falsy, and returns `cond`
unchanged (only the accumulator effect is modelled). -/
def assertRecord (cond : Bool) (msg : String) : List String :=
  if cond then [] else [msg]

/-- The merge step `(errors[path] ||= []).push(...assertionErrors)`: append
`msgs` to the list at `path`, creating the key (at the end, by JS insertion
order) when absent. -/
def addErrors (errors : ErrorMap) (path : String) (msgs : List String) : ErrorMap :=
  if errors.any (fun e => e.1 == path) then
    errors.map (fun e => if e.1 == path then (e.1, e.2 ++ msgs) else e)
  else errors ++ [(path, msgs)]

/-- Own property keys of `Object.prototype`, the top of every plain
object's (and array's) prototype chain: the ECMAScript standard members,
including the Annex B accessors implemented by every relevant engine. -/
def objectPrototypeKeys : List String :=
  ["constructor", "hasOwnProperty", "isPrototypeOf", "propertyIsEnumerable",
   "toLocaleString", "toString", "valueOf", "__proto__",
   "__defineGetter__", "__defineSetter__", "__lookupGetter__", "__lookupSetter__"]

/-- Own property keys of `Array.prototype` (the ES2021 set; the exact
member list is engine-version dependent, and later engine additions only
extend it with further method names in the same way). -/
def arrayPrototypeKeys : List String :=
  ["at", "concat", "constructor", "copyWithin", "entries", "every", "fill",
   "filter", "find", "findIndex", "flat", "flatMap", "forEach", "includes",
   "indexOf", "join", "keys", "lastIndexOf", "length", "map", "pop", "push",
   "reduce", "reduceRight", "reverse", "shift", "slice", "some", "sort",
   "splice", "toLocaleString", "toString", "unshift", "values"]

/-- The `Object.prototype` object itself (the value of `({}).__proto__`):
its own properties are exactly `objectPrototypeKeys`, function-valued except
for `__proto__`, whose accessor yields `null` at the top of the chain. -/
def objectPrototype : Value :=
  .vobj (objectPrototypeKeys.map
    (fun k => (k, if k == "__proto__" then Value.vnull else .vnative k)))

/-- The `Array.prototype` object (the value of `[].__proto__`): its own
properties are `arrayPrototypeKeys`, function-valued except for its numeric
`length`; its own prototype chain continues at `Object.prototype`, which the
plain-object access rules below supply. -/
def arrayPrototype : Value :=
  .vobj (arrayPrototypeKeys.map
    (fun k => (k, if k == "length" then Value.vnum 0 else .vnative k)))

/-- The JS test `key in input` as used by the object branch. `in` consults
own properties and the whole prototype chain: for a plain object the own
keys plus the `Object.prototype` members; for an array the canonical
decimal indices and `length` plus the `Array.prototype` and
`Object.prototype` members. The engine only evaluates this test on inputs
that passed `typeof input === 'object' && input !== null`. -/
def Value.keyIn : Value → String → Bool
  | .vobj fields, k =>
      fields.any (fun kv => kv.1 == k) || objectPrototypeKeys.contains k
  | .varr elems, k =>
      k == "length" || (List.range elems.length).any (fun i => Nat.repr i == k)
        || arrayPrototypeKeys.contains k || objectPrototypeKeys.contains k
  | _, _ => false

/-- The member access `input[key]` for a key that passed `Value.keyIn`: the
own property when present, otherwise the inherited prototype member
(`__proto__` resolves to the prototype object itself; the other standard
members are native functions). -/
def Value.getKey : Value → String → Value
  | .vobj fields, k =>
      match fields.find? (fun kv => kv.1 == k) with
      | some kv => kv.2
      | none =>
        if k == "__proto__" then objectPrototype
        else if objectPrototypeKeys.contains k then .vnative k
        else .vundefined
  | .varr elems, k =>
      match (List.range elems.length).find? (fun i => Nat.repr i == k) with
      | some i => elems.getD i .vundefined
      | none =>
        if k == "length" then .vnum elems.length
        else if k == "__proto__" then arrayPrototype
        else if arrayPrototypeKeys.contains k || objectPrototypeKeys.contains k then
          .vnative k
        else .vundefined
  | _, _ => .vundefined

/-- The JS membership test `'$each' in rules` for a rules object (the
prototype chain of an object literal has no `$each` member, so here the
`in` test is exactly own-key membership). -/
def hasEach (fields : List (String × RulesSet)) : Bool :=
  fields.any (fun kv => kv.1 == eachKey)

/-- The member access `rules.$each` (meaningful when `hasEach` holds). -/
def eachOf (fields : List (String × RulesSet)) : RulesSet :=
  match fields.find? (fun kv => kv.1 == eachKey) with
  | some kv => kv.2
  | none => .rarr []

mutual
/-- The recursive dispatcher `applyRulesRecursively(input, rules, path,
errors)`. Branch order as in the source: leaf function; `Array.isArray(rules)`;
`Array.isArray(input) && '$each' in rules`; `typeof input === 'object' &&
input !== null` (which includes arrays); otherwise a silent no-op. A thrown
exception propagates as `Except.error`. -/
def applyRulesRecursively (input : Value) (rules : RulesSet) (path : String)
    (errors : ErrorMap) : Except String ErrorMap :=
  match rules with
  | .func r =>
    match r input with
    | .exn e => .error e
    | .ok assertionErrors =>
      .ok (if assertionErrors.isEmpty then errors
           else addErrors errors path assertionErrors)
  | .rarr sets => applyToAll input sets path errors
  | .robj fields =>
    match input with
    | .varr elems =>
      if hf : hasEach fields then applyToEach elems (eachOf fields) path 0 errors
      else applyToFields (.varr elems) fields path errors
    | .vobj ifields => applyToFields (.vobj ifields) fields path errors
    | _ => .ok errors
termination_by (sizeOf rules, 0)
decreasing_by
  all_goals first
  | (apply Prod.Lex.left
     unfold hasEach at hf
     rw [List.any_eq_true] at hf
     obtain ⟨kv, hmem, hkey⟩ := hf
     have hfind : (fields.find? (fun kv => kv.1 == eachKey)).isSome :=
       List.find?_isSome.mpr ⟨kv, hmem, hkey⟩
     obtain ⟨kv', hkv'⟩ := Option.isSome_iff_exists.mp hfind
     have hmem' := List.mem_of_find?_eq_some hkv'
     have hlt := List.sizeOf_lt_of_mem hmem'
     unfold eachOf
     rw [hkv']
     cases kv' with | mk k v => simp at hlt ⊢; omega)
  | (apply Prod.Lex.left; simp; omega)
  | (apply Prod.Lex.left; simp)
  | (apply Prod.Lex.left; omega)

/-- The `ArrayOfRulesSets` branch: `rules.map(rule =>
applyRulesRecursively(input, rule, path, errors))` joined by `Promise.all`,
in the canonical sequential interleaving. -/
def applyToAll (input : Value) (sets : List RulesSet) (path : String)
    (errors : ErrorMap) : Except String ErrorMap :=
  match sets with
  | [] => .ok errors
  | s :: rest =>
    match applyRulesRecursively input s path errors with
    | .error e => .error e
    | .ok errors' => applyToAll input rest path errors'
termination_by (sizeOf sets, 0)
decreasing_by
  all_goals first
  | (apply Prod.Lex.left; simp; omega)
  | (apply Prod.Lex.left; simp)
  | (apply Prod.Lex.left; omega)

/-- The `$each` branch: `input.map((v, i) => applyRulesRecursively(v,
rules.$each, path + "." + i, errors))` joined by `Promise.all`, in the
canonical sequential interleaving; `i` counts from the given start index. -/
def applyToEach (elems : List Value) (rs : RulesSet) (path : String) (i : Nat)
    (errors : ErrorMap) : Except String ErrorMap :=
  match elems with
  | [] => .ok errors
  | v :: rest =>
    match applyRulesRecursively v rs (path ++ "." ++ Nat.repr i) errors with
    | .error e => .error e
    | .ok errors' => applyToEach rest rs path (i + 1) errors'
termination_by (sizeOf rs, elems.length + 1)
decreasing_by
  all_goals first
  | (apply Prod.Lex.right; simp; omega)
  | (apply Prod.Lex.right; simp)
  | (apply Prod.Lex.right; omega)

/-- The object branch: `Object.keys(rules).filter(key => key in
input).map(key => applyRulesRecursively(input[key], rules[key], path + "." +
key, errors))` joined by `Promise.all`, in the canonical sequential
interleaving. -/
def applyToFields (input : Value) (fields : List (String × RulesSet))
    (path : String) (errors : ErrorMap) : Except String ErrorMap :=
  match fields with
  | [] => .ok errors
  | (k, rs) :: rest =>
    if input.keyIn k then
      match applyRulesRecursively (input.getKey k) rs (path ++ "." ++ k) errors with
      | .error e => .error e
      | .ok errors' => applyToFields input rest path errors'
    else applyToFields input rest path errors
termination_by (sizeOf fields, 0)
decreasing_by
  all_goals first
  | (apply Prod.Lex.left; simp; omega)
  | (apply Prod.Lex.left; simp)
  | (apply Prod.Lex.left; omega)
end

/-- The accumulator computed by one `validate` call: the dispatcher run on
the normalised rules set (`rules.length > 1 ? rules : rules[0]`) at the root
path `$` with a fresh empty error record. -/
def runErrors (input : Value) (rules : List RulesSet) : Except String ErrorMap :=
  match rules with
  | [] => .ok []
  | [rs] => applyRulesRecursively input rs "$" []
  | rs :: rest => applyRulesRecursively input (.rarr (rs :: rest)) "$" []

/-- The discriminated result `{ valid, errors }`. -/
structure ValidationResult where
  valid : Bool
  errors : Option ErrorMap

/-- The entry point `validate(input, ...rules)`: throws `No rule specified`
on an empty rules list, otherwise runs the dispatcher and returns
`{valid:false, errors}` when the record has keys and `{valid:true,
errors:null}` otherwise. -/
def validate (input : Value) (rules : List RulesSet) :
    Except String ValidationResult :=
  match rules with
  | [] => .error "No rule specified"
  | _ :: _ =>
    match runErrors input rules with
    | .error e => .error e
    | .ok errors =>
      .ok (if errors.isEmpty then ⟨true, none⟩ else ⟨false, some errors⟩)

/-- Modelled from the spec: the flattened `errors.all` view is absent from
`src/` (only the tests and the spec describe it). Per the spec it enumerates
`{path, message}` pairs "in the order paths were first populated then in
message order within a path", i.e. the in-order flattening of the path to
messages mapping. -/
def ErrorMap.all (errors : ErrorMap) : List (String × String) :=
  (errors.map (fun e => e.2.map (fun m => (e.1, m)))).flatten

/-- Plain decimal digit expansion of a natural number (the engine builds
element paths with the template literal `` `${path}.${i}` ``, i.e. the
decimal rendering of the index, `Nat.repr` in the model). -/
def decChars (n : Nat) : List Char :=
  if n < 10 then [Nat.digitChar n]
  else decChars (n / 10) ++ [Nat.digitChar (n % 10)]
decreasing_by simp_wf; omega

/-- The example rule `(n, assert) => assert(n > 5, 'too small')` from the
specification (the comparison is false on non-numbers, as it is for the
inputs the example uses). -/
def exampleRule : Rule := fun v =>
  .ok (assertRecord (match v with | .vnum n => decide (n > 5) | _ => false) "too small")

/-- Inputs that fit none of the object-branch dispatch conditions: not an
array and not a non-null keyed structure, i.e. everything on which
`typeof input === 'object' && input !== null` fails (primitives,
`undefined`, `null`, and function values, whose `typeof` is `'function'`). -/
def Value.isPrimitiveOrNull : Value → Bool
  | .varr _ => false
  | .vobj _ => false
  | _ => true

/-- Expected contribution of a `$each` traversal with a pure leaf rule whose
message list on `v` is `f v`: one entry at `path + "." + index` for exactly
the failing indices, in index order. -/
def eachContrib (f : Value → List String) (elems : List Value) (path : String)
    (i : Nat) : ErrorMap :=
  match elems with
  | [] => []
  | v :: rest =>
    (if f v = [] then [] else [(path ++ "." ++ Nat.repr i, f v)])
      ++ eachContrib f rest path (i + 1)

/-- Invariant of the shared error record: a path is only merged in together
with a non-empty message list, and record keys are pairwise distinct. -/
def GoodMap (errors : ErrorMap) : Prop :=
  (∀ e ∈ errors, e.2 ≠ []) ∧ (errors.map Prod.fst).Nodup

/-! ### Theorems -/

/-- The `$each` sub-rules set is structurally smaller than its enclosing
rules object. -/
theorem sizeOf_eachOf_lt {fields : List (String × RulesSet)}
    (h : hasEach fields = true) : sizeOf (eachOf fields) < 1 + sizeOf fields := by
  unfold hasEach at h
  rw [List.any_eq_true] at h
  obtain ⟨kv, hmem, hkey⟩ := h
  have hfind : (fields.find? (fun kv => kv.1 == eachKey)).isSome :=
    List.find?_isSome.mpr ⟨kv, hmem, hkey⟩
  obtain ⟨kv', hkv'⟩ := Option.isSome_iff_exists.mp hfind
  have hmem' := List.mem_of_find?_eq_some hkv'
  have hlt := List.sizeOf_lt_of_mem hmem'
  unfold eachOf
  rw [hkv']
  cases kv' with | mk k v => simp at hlt ⊢; omega

theorem digitChar_inj_lt :
    ∀ m < 10, ∀ n < 10, Nat.digitChar m = Nat.digitChar n → m = n := by decide

theorem decChars_eq_lt {n : Nat} (h : n < 10) : decChars n = [Nat.digitChar n] := by
  rw [decChars]
  exact if_pos h

theorem decChars_eq_ge {n : Nat} (h : ¬ n < 10) :
    decChars n = decChars (n / 10) ++ [Nat.digitChar (n % 10)] := by
  rw [decChars]
  exact if_neg h

theorem decChars_ne_nil (n : Nat) : decChars n ≠ [] := by
  by_cases h : n < 10
  · rw [decChars_eq_lt h]; simp
  · rw [decChars_eq_ge h]; simp

theorem toDigitsCore_eq_decChars :
    ∀ n : Nat, ∀ fuel ds, n < fuel →
      Nat.toDigitsCore 10 fuel n ds = decChars n ++ ds := by
  intro n
  induction n using Nat.strong_induction_on with
  | _ n ih =>
    intro fuel ds hfuel
    match fuel with
    | 0 => omega
    | f + 1 =>
      rw [Nat.toDigitsCore]
      by_cases h10 : n < 10
      · have hdiv : n / 10 = 0 := Nat.div_eq_of_lt h10
        simp only [hdiv, if_pos]
        rw [decChars_eq_lt h10, Nat.mod_eq_of_lt h10]
        rfl
      · have hdiv : n / 10 ≠ 0 := by omega
        simp only [hdiv, if_neg, ite_false]
        have hlt : n / 10 < n := Nat.div_lt_self (by omega) (by omega)
        rw [ih (n / 10) hlt f (Nat.digitChar (n % 10) :: ds) (by omega)]
        rw [decChars_eq_ge h10]
        simp

theorem decChars_injective : ∀ m n : Nat, decChars m = decChars n → m = n := by
  intro m
  induction m using Nat.strong_induction_on with
  | _ m ih =>
    intro n h
    by_cases hm : m < 10 <;> by_cases hn : n < 10
    · rw [decChars_eq_lt hm, decChars_eq_lt hn] at h
      exact digitChar_inj_lt m hm n hn (by injection h)
    · rw [decChars_eq_lt hm, decChars_eq_ge hn] at h
      have hlen := congrArg List.length h
      simp at hlen
      exact absurd hlen (decChars_ne_nil _)
    · rw [decChars_eq_ge hm, decChars_eq_lt hn] at h
      have hlen := congrArg List.length h
      simp at hlen
      exact absurd hlen (decChars_ne_nil _)
    · rw [decChars_eq_ge hm, decChars_eq_ge hn] at h
      obtain ⟨h1, h2⟩ := List.append_inj' h (by simp)
      have hdiv : m / 10 = n / 10 :=
        ih (m / 10) (Nat.div_lt_self (by omega) (by omega)) (n / 10) h1
      have hmod : m % 10 = n % 10 := by
        have hc : Nat.digitChar (m % 10) = Nat.digitChar (n % 10) := by injection h2
        exact digitChar_inj_lt (m % 10) (by omega) (n % 10) (by omega) hc
      omega

theorem natRepr_injective {m n : Nat} (h : Nat.repr m = Nat.repr n) : m = n := by
  unfold Nat.repr Nat.toDigits at h
  have hm := toDigitsCore_eq_decChars m (m + 1) [] (by omega)
  have hn := toDigitsCore_eq_decChars n (n + 1) [] (by omega)
  rw [hm, hn] at h
  apply decChars_injective m n
  have hd := congrArg String.data h
  simpa [List.asString] using hd

theorem indexPath_injective {p : String} {i j : Nat}
    (h : p ++ "." ++ Nat.repr i = p ++ "." ++ Nat.repr j) : i = j := by
  have hd := congrArg String.data h
  simp only [String.data_append] at hd
  rw [List.append_assoc, List.append_assoc] at hd
  have hd2 := List.append_cancel_left hd
  have hd3 := List.append_cancel_left hd2
  exact natRepr_injective (String.ext hd3)

/-! ### Invariants of the shared error record -/

theorem goodMap_nil : GoodMap [] := by constructor <;> simp

theorem addErrors_map_fst_of_mem {errors : ErrorMap} {path : String}
    {msgs : List String} (h : errors.any (fun e => e.1 == path)) :
    (addErrors errors path msgs).map Prod.fst = errors.map Prod.fst := by
  unfold addErrors
  rw [if_pos h, List.map_map]
  apply List.map_congr_left
  intro e _
  by_cases he : e.1 = path
  · simp [he]
  · simp [he]

theorem addErrors_goodMap {errors : ErrorMap} {path : String}
    {msgs : List String} (hg : GoodMap errors) (hm : msgs ≠ []) :
    GoodMap (addErrors errors path msgs) := by
  obtain ⟨hne, hnd⟩ := hg
  by_cases h : errors.any (fun e => e.1 == path)
  · constructor
    · intro e he
      unfold addErrors at he
      rw [if_pos h] at he
      obtain ⟨e0, he0, heq⟩ := List.mem_map.mp he
      by_cases hc : e0.1 == path
      · rw [if_pos hc] at heq
        subst heq
        simp [hm]
      · rw [if_neg hc] at heq
        subst heq
        exact hne e0 he0
    · rw [addErrors_map_fst_of_mem h]
      exact hnd
  · have hnot : path ∉ errors.map Prod.fst := by
      intro hmem
      obtain ⟨e0, he0, heq⟩ := List.mem_map.mp hmem
      exact h (List.any_eq_true.mpr ⟨e0, he0, by simp [heq]⟩)
    constructor
    · intro e he
      unfold addErrors at he
      rw [if_neg h] at he
      rcases List.mem_append.mp he with h1 | h1
      · exact hne e h1
      · simp at h1
        subst h1
        simpa using hm
    · unfold addErrors
      rw [if_neg h, List.map_append]
      simp [List.nodup_append, hnd, hnot]

theorem applyToAll_goodMap {input : Value} {sets : List RulesSet} {path : String}
    (IH : ∀ s ∈ sets, ∀ e e', GoodMap e →
      applyRulesRecursively input s path e = .ok e' → GoodMap e') :
    ∀ e e', GoodMap e → applyToAll input sets path e = .ok e' → GoodMap e' := by
  induction sets with
  | nil =>
    intro e e' hg h
    rw [applyToAll] at h
    simp at h
    exact h ▸ hg
  | cons s rest ihl =>
    intro e e' hg h
    rw [applyToAll] at h
    cases hr : applyRulesRecursively input s path e with
    | error err => rw [hr] at h; simp at h
    | ok e1 =>
      rw [hr] at h
      simp at h
      exact ihl (fun s' hs' => IH s' (List.mem_cons_of_mem _ hs')) e1 e'
        (IH s (List.mem_cons_self _ _) e e1 hg hr) h

theorem applyToEach_goodMap {rs : RulesSet} {path : String}
    (IH : ∀ v p e e', GoodMap e →
      applyRulesRecursively v rs p e = .ok e' → GoodMap e') :
    ∀ elems i e e', GoodMap e → applyToEach elems rs path i e = .ok e' → GoodMap e' := by
  intro elems
  induction elems with
  | nil =>
    intro i e e' hg h
    rw [applyToEach] at h
    simp at h
    exact h ▸ hg
  | cons v rest ihl =>
    intro i e e' hg h
    rw [applyToEach] at h
    cases hr : applyRulesRecursively v rs (path ++ "." ++ Nat.repr i) e with
    | error err => rw [hr] at h; simp at h
    | ok e1 =>
      rw [hr] at h
      simp at h
      exact ihl (i + 1) e1 e' (IH v _ e e1 hg hr) h

theorem applyToFields_goodMap {input : Value} {fields : List (String × RulesSet)}
    {path : String}
    (IH : ∀ kv ∈ fields, ∀ v p e e', GoodMap e →
      applyRulesRecursively v kv.2 p e = .ok e' → GoodMap e') :
    ∀ e e', GoodMap e → applyToFields input fields path e = .ok e' → GoodMap e' := by
  induction fields with
  | nil =>
    intro e e' hg h
    rw [applyToFields] at h
    simp at h
    exact h ▸ hg
  | cons kv rest ihl =>
    obtain ⟨k, rs⟩ := kv
    intro e e' hg h
    rw [applyToFields] at h
    by_cases hk : input.keyIn k
    · rw [if_pos hk] at h
      cases hr : applyRulesRecursively (input.getKey k) rs (path ++ "." ++ k) e with
      | error err => rw [hr] at h; simp at h
      | ok e1 =>
        rw [hr] at h
        simp at h
        exact ihl (fun kv' hkv' => IH kv' (List.mem_cons_of_mem _ hkv')) e1 e'
          (IH (k, rs) (List.mem_cons_self _ _) _ _ e e1 hg hr) h
    · rw [if_neg hk] at h
      exact ihl (fun kv' hkv' => IH kv' (List.mem_cons_of_mem _ hkv')) e e' hg h

theorem applyRules_goodMap :
    ∀ N rules, sizeOf rules ≤ N → ∀ (input : Value) (path : String) e e',
      GoodMap e → applyRulesRecursively input rules path e = .ok e' → GoodMap e' := by
  intro N
  induction N with
  | zero =>
    intro rules h
    cases rules <;> simp at h
  | succ N ihN =>
    intro rules hs input path e e' hg h
    cases rules with
    | func r =>
      rw [applyRulesRecursively] at h
      cases hr : r input with
      | exn err => rw [hr] at h; simp at h
      | ok msgs =>
        rw [hr] at h
        simp at h
        by_cases hmp : msgs = []
        · rw [if_pos hmp] at h
          exact h ▸ hg
        · rw [if_neg hmp] at h
          exact h ▸ addErrors_goodMap hg hmp
    | rarr sets =>
      rw [applyRulesRecursively] at h
      refine applyToAll_goodMap (fun s hs' e1 e2 hg1 h1 => ?_) e e' hg h
      have h1s : sizeOf s ≤ N := by
        have := List.sizeOf_lt_of_mem hs'
        simp at hs
        omega
      exact ihN s h1s input path e1 e2 hg1 h1
    | robj fields =>
      have hfsz : sizeOf fields ≤ N := by simp at hs; omega
      cases input with
      | varr elems =>
        rw [applyRulesRecursively] at h
        by_cases hf : hasEach fields
        · rw [dif_pos hf] at h
          refine applyToEach_goodMap (fun v p e1 e2 hg1 h1 => ?_) elems 0 e e' hg h
          have hesz : sizeOf (eachOf fields) ≤ N := by
            have := sizeOf_eachOf_lt hf
            omega
          exact ihN (eachOf fields) hesz v p e1 e2 hg1 h1
        · rw [dif_neg hf] at h
          refine applyToFields_goodMap (fun kv hkv v p e1 e2 hg1 h1 => ?_) e e' hg h
          have hksz : sizeOf kv.2 ≤ N := by
            have h1 := List.sizeOf_lt_of_mem hkv
            cases kv with | mk a b => simp at h1 ⊢; omega
          exact ihN kv.2 hksz v p e1 e2 hg1 h1
      | vobj ifields =>
        rw [applyRulesRecursively] at h
        refine applyToFields_goodMap (fun kv hkv v p e1 e2 hg1 h1 => ?_) e e' hg h
        have hksz : sizeOf kv.2 ≤ N := by
          have h1 := List.sizeOf_lt_of_mem hkv
          cases kv with | mk a b => simp at h1 ⊢; omega
        exact ihN kv.2 hksz v p e1 e2 hg1 h1
      | vnull => simp [applyRulesRecursively] at h; exact h ▸ hg
      | vundefined => simp [applyRulesRecursively] at h; exact h ▸ hg
      | vbool b => simp [applyRulesRecursively] at h; exact h ▸ hg
      | vnum n => simp [applyRulesRecursively] at h; exact h ▸ hg
      | vstr s => simp [applyRulesRecursively] at h; exact h ▸ hg
      | vnative name => simp [applyRulesRecursively] at h; exact h ▸ hg

theorem runErrors_goodMap {input : Value} {rules : List RulesSet} {acc : ErrorMap}
    (h : runErrors input rules = .ok acc) : GoodMap acc := by
  match rules with
  | [] =>
    rw [runErrors] at h
    simp at h
    exact h ▸ goodMap_nil
  | [rs] =>
    rw [runErrors] at h
    exact applyRules_goodMap (sizeOf rs) rs le_rfl input "$" [] acc goodMap_nil h
  | rs :: rest :: more =>
    rw [runErrors] at h
    · exact applyRules_goodMap _ _ le_rfl input "$" [] acc goodMap_nil h
    · simp

/-! ### Helper lemmas for the claim theorems -/

theorem addErrors_not_mem {errors : ErrorMap} {path : String} {msgs : List String}
    (h : path ∉ errors.map Prod.fst) :
    addErrors errors path msgs = errors ++ [(path, msgs)] := by
  unfold addErrors
  rw [if_neg]
  intro hany
  rw [List.any_eq_true] at hany
  obtain ⟨e0, he0, heq⟩ := hany
  exact h (List.mem_map.mpr ⟨e0, he0, by simpa using heq⟩)

theorem applyToEach_pure (f : Value → List String) (elems : List Value)
    (path : String) :
    ∀ (i : Nat) (errors : ErrorMap),
      (∀ j, i ≤ j → (path ++ "." ++ Nat.repr j) ∉ errors.map Prod.fst) →
      applyToEach elems (.func (fun v => .ok (f v))) path i errors
        = .ok (errors ++ eachContrib f elems path i) := by
  induction elems with
  | nil =>
    intro i errors _
    rw [applyToEach, eachContrib]
    simp
  | cons v rest ih =>
    intro i errors hfresh
    rw [applyToEach, applyRulesRecursively]
    simp only
    by_cases hfv : f v = []
    · rw [if_pos (by simpa using hfv)]
      rw [ih (i + 1) errors (fun j hj => hfresh j (by omega))]
      rw [eachContrib, if_pos hfv]
      simp
    · rw [if_neg (by simpa using hfv)]
      rw [addErrors_not_mem (hfresh i le_rfl)]
      rw [ih (i + 1) (errors ++ [(path ++ "." ++ Nat.repr i, f v)])]
      · rw [eachContrib, if_neg hfv]
        simp
      · intro j hj hmem
        rw [List.map_append] at hmem
        rcases List.mem_append.mp hmem with h1 | h1
        · exact hfresh j (by omega) h1
        · simp at h1
          have := indexPath_injective h1
          omega

theorem mem_eachContrib_fst (f : Value → List String) (elems : List Value)
    (path : String) :
    ∀ (i : Nat) (k : String),
      (k ∈ (eachContrib f elems path i).map Prod.fst ↔
        ∃ j, j < elems.length ∧ k = path ++ "." ++ Nat.repr (i + j) ∧
          f (elems.getD j .vundefined) ≠ []) := by
  induction elems with
  | nil =>
    intro i k
    rw [eachContrib]
    simp
  | cons v rest ih =>
    intro i k
    rw [eachContrib]
    rw [List.map_append, List.mem_append]
    constructor
    · intro h
      rcases h with h1 | h1
      · by_cases hfv : f v = []
        · rw [if_pos hfv] at h1; simp at h1
        · rw [if_neg hfv] at h1
          simp at h1
          exact ⟨0, by simp, by simpa using h1, by simpa using hfv⟩
      · obtain ⟨j, hj, hk, hne⟩ := (ih (i + 1) k).mp h1
        exact ⟨j + 1, by simp; omega, by rw [hk]; congr 2; omega, by simpa using hne⟩
    · intro ⟨j, hj, hk, hne⟩
      cases j with
      | zero =>
        left
        rw [if_neg (by simpa using hne)]
        simp [hk]
      | succ j' =>
        right
        refine (ih (i + 1) k).mpr ⟨j', by simp at hj; omega, ?_, by simpa using hne⟩
        rw [hk]
        congr 2
        omega

theorem applyToFields_filter (input : Value) (fields : List (String × RulesSet))
    (path : String) :
    ∀ errors : ErrorMap,
      applyToFields input fields path errors
        = applyToFields input (fields.filter (fun kv => input.keyIn kv.1)) path errors := by
  induction fields with
  | nil => intro errors; rfl
  | cons kv rest ih =>
    obtain ⟨k, rs⟩ := kv
    intro errors
    by_cases hk : input.keyIn k
    · rw [List.filter_cons_of_pos (by simpa using hk)]
      rw [applyToFields, if_pos hk, applyToFields, if_pos hk]
      cases applyRulesRecursively (input.getKey k) rs (path ++ "." ++ k) errors with
      | error e => rfl
      | ok e1 => exact ih e1
    · rw [List.filter_cons_of_neg (by simpa using hk)]
      rw [applyToFields, if_neg hk]
      exact ih errors

theorem mem_all_fst {em : ErrorMap} :
    ∀ x ∈ ErrorMap.all em, x.1 ∈ em.map Prod.fst := by
  induction em with
  | nil => intro x hx; simp [ErrorMap.all] at hx
  | cons e rest ih =>
    intro x hx
    unfold ErrorMap.all at hx
    simp only [List.map_cons, List.flatten_cons, List.mem_append] at hx
    rcases hx with h1 | h1
    · obtain ⟨m, _, hm⟩ := List.mem_map.mp h1
      simp [← hm]
    · have := ih x h1
      simp at this ⊢
      tauto

theorem count_pair_map (q : String) (msgs : List String) (p m : String) :
    (msgs.map (fun m' => (q, m'))).count (p, m)
      = if q = p then msgs.count m else 0 := by
  induction msgs with
  | nil => simp
  | cons m0 rest ih =>
    simp only [List.map_cons, List.count_cons, ih]
    by_cases hq : q = p
    · subst hq
      by_cases hm : m0 = m
      · subst hm; simp
      · simp [hm, Prod.ext_iff]
    · simp [hq, Prod.ext_iff]

theorem count_all_of_nodup (em : ErrorMap) (hnd : (em.map Prod.fst).Nodup)
    (p m : String) :
    (ErrorMap.all em).count (p, m) = ((List.lookup p em).getD []).count m := by
  induction em with
  | nil => simp [ErrorMap.all]
  | cons e rest ih =>
    obtain ⟨q, msgs⟩ := e
    simp only [List.map_cons, List.nodup_cons] at hnd
    obtain ⟨hq, hnd'⟩ := hnd
    unfold ErrorMap.all
    simp only [List.map_cons, List.flatten_cons]
    rw [List.count_append]
    have hrest : (ErrorMap.all rest).count (p, m)
        = ((List.lookup p rest).getD []).count m := ih hnd'
    rw [count_pair_map]
    by_cases hpq : q = p
    · subst hpq
      rw [List.lookup_cons_self, if_pos rfl]
      simp only [Option.getD_some]
      have hzero : (ErrorMap.all rest).count (q, m) = 0 := by
        rw [List.count_eq_zero]
        intro hmem
        exact hq (by simpa using mem_all_fst (q, m) hmem)
      unfold ErrorMap.all at hzero
      omega
    · rw [if_neg hpq]
      have hl : List.lookup p ((q, msgs) :: rest) = List.lookup p rest := by
        rw [List.lookup_cons]
        simp [show (p == q) = false from by simpa using fun h => hpq h.symm]
      rw [hl]
      unfold ErrorMap.all at hrest
      omega

theorem validate_ok_some {input : Value} {rules : List RulesSet}
    {r : ValidationResult} {em : ErrorMap}
    (hv : validate input rules = .ok r) (he : r.errors = some em) :
    runErrors input rules = .ok em ∧ r = ⟨false, some em⟩ := by
  match rules with
  | [] => rw [validate] at hv; simp at hv
  | r0 :: rest =>
    rw [validate] at hv
    cases hre : runErrors input (r0 :: rest) with
    | error e => rw [hre] at hv; simp at hv
    | ok acc =>
      rw [hre] at hv
      simp only [Except.ok.injEq] at hv
      by_cases hacc : acc.isEmpty
      · rw [if_pos hacc] at hv
        rw [← hv] at he
        simp at he
      · rw [if_neg hacc] at hv
        have hacc_em : acc = em := by
          rw [← hv] at he
          simpa using he
        subst hacc_em
        exact ⟨rfl, hv.symm⟩

/-! ### Claim theorems -/

/-- C1: for every call to `validate` that resolves, the returned result
satisfies `valid == (errors === null)` and `valid == (no path in the error
accumulator has a non-empty message list)`. -/
theorem validate_result_invariant (input : Value) (rules : List RulesSet)
    (r : ValidationResult) (acc : ErrorMap)
    (hv : validate input rules = .ok r) (ha : runErrors input rules = .ok acc) :
    ((r.valid = true) ↔ r.errors = none) ∧
    ((r.valid = true) ↔ ∀ e ∈ acc, e.2 = ([] : List String)) := by
  match rules with
  | [] => rw [validate] at hv; simp at hv
  | r0 :: rest =>
    rw [validate] at hv
    rw [ha] at hv
    simp only [Except.ok.injEq] at hv
    cases acc with
    | nil =>
      simp only [List.isEmpty_nil, if_pos] at hv
      rw [← hv]
      simp
    | cons e0 acct =>
      simp only [List.isEmpty_cons, Bool.false_eq_true, if_false] at hv
      have hg := runErrors_goodMap ha
      have hne := hg.1 e0 (List.mem_cons_self _ _)
      constructor
      · rw [← hv]; simp
      · rw [← hv]
        simp only [Bool.false_eq_true, false_iff]
        intro hall
        exact hne (hall e0 (List.mem_cons_self _ _))

/-- C1 witness: the invariant instantiated at the failing example input. -/
theorem validate_result_invariant_witness :
    (((⟨false, some [("$", ["too small"])]⟩ : ValidationResult).valid = true) ↔
      (⟨false, some [("$", ["too small"])]⟩ : ValidationResult).errors = none) ∧
    (((⟨false, some [("$", ["too small"])]⟩ : ValidationResult).valid = true) ↔
      ∀ e ∈ [("$", ["too small"])], e.2 = ([] : List String)) :=
  validate_result_invariant (.vnum 3) [.func exampleRule] _ _
    (by simp [validate, runErrors, applyRulesRecursively, exampleRule, assertRecord, addErrors])
    (by simp [runErrors, applyRulesRecursively, exampleRule, assertRecord, addErrors])

/-- C2: `validate` with zero rule sets rejects with the `No rule specified`
invocation error and produces no result. -/
theorem validate_no_rules (input : Value) :
    validate input [] = .error "No rule specified" := rfl

/-- C3: two rule sets passed as separate arguments are validated exactly as
the single array containing them. -/
theorem validate_two_rules_eq_array (input : Value) (r1 r2 : RulesSet) :
    validate input [r1, r2] = validate input [RulesSet.rarr [r1, r2]] := rfl

/-- C9: the concrete example, `validate(10, rule)` succeeds with null errors
and `validate(3, rule)` fails with `"too small"` recorded at the root
sentinel path. -/
theorem validate_example_gt5 :
    validate (.vnum 10) [.func exampleRule] = .ok ⟨true, none⟩ ∧
    validate (.vnum 3) [.func exampleRule]
      = .ok ⟨false, some [("$", ["too small"])]⟩ := by
  constructor
  · simp [validate, runErrors, applyRulesRecursively, exampleRule, assertRecord]
  · simp [validate, runErrors, applyRulesRecursively, exampleRule, assertRecord, addErrors]

/-- C4: with a per-element rule under `$each`, an array input of length N
yields exactly one recursive application per element at path `$.<index>`,
and the resulting error map holds exactly the failing indices' paths. -/
theorem validate_each_distributes (f : Value → List String) (xs : List Value) :
    runErrors (.varr xs) [.robj [(eachKey, .func (fun v => .ok (f v)))]]
      = .ok (eachContrib f xs "$" 0)
    ∧ ∀ i, i < xs.length →
        (("$" ++ "." ++ Nat.repr i) ∈ (eachContrib f xs "$" 0).map Prod.fst
          ↔ f (xs.getD i .vundefined) ≠ []) := by
  constructor
  · rw [runErrors, applyRulesRecursively]
    rw [dif_pos (show hasEach [(eachKey, .func (fun v => .ok (f v)))] = true
      from by simp [hasEach])]
    rw [show eachOf [(eachKey, RulesSet.func (fun v => .ok (f v)))]
        = RulesSet.func (fun v => .ok (f v)) from by simp [eachOf]]
    rw [applyToEach_pure f xs "$" 0 [] (by simp)]
    simp
  · intro i hi
    rw [mem_eachContrib_fst]
    constructor
    · intro ⟨j, hj, hk, hne⟩
      have hij : i = 0 + j := indexPath_injective hk
      rw [show i = j from by omega]
      exact hne
    · intro hne
      exact ⟨i, hi, by simp, hne⟩

/-- C4 witness: the distribution law at a concrete two-element array with
one failing element. -/
theorem validate_each_distributes_witness :
    (("$" ++ "." ++ Nat.repr 1) ∈
        (eachContrib (fun v => match v with | .vnum n => if n < 0 then ["neg"] else [] | _ => [])
          [Value.vnum 1, Value.vnum (-2)] "$" 0).map Prod.fst
      ↔ (fun v => match v with | .vnum n => if n < 0 then ["neg"] else [] | _ => [])
          ([Value.vnum 1, Value.vnum (-2)].getD 1 .vundefined) ≠ []) :=
  (validate_each_distributes
    (fun v => match v with | .vnum n => if n < 0 then ["neg"] else [] | _ => [])
    [Value.vnum 1, Value.vnum (-2)]).2 1 (by decide)

/-- C5 (amended): against an object rules set, recursion descends exactly
into the rule keys for which the JS `in` test succeeds on the input — its
own keys together with inherited prototype members — each at the path
extended with the key; rule keys failing the `in` test are silently skipped
with no error recorded, and when every rule key fails it the branch leaves
the record untouched (input keys absent from the rules object are never
visited). -/
theorem object_rules_descend_present_keys (ifields : List (String × Value))
    (rfields : List (String × RulesSet)) (path : String) (errors : ErrorMap) :
    applyRulesRecursively (.vobj ifields) (.robj rfields) path errors
      = applyToFields (.vobj ifields)
          (rfields.filter (fun kv => (Value.vobj ifields).keyIn kv.1)) path errors
    ∧ ((∀ kv ∈ rfields, (Value.vobj ifields).keyIn kv.1 = false) →
        applyRulesRecursively (.vobj ifields) (.robj rfields) path errors
          = .ok errors) := by
  have h1 : applyRulesRecursively (.vobj ifields) (.robj rfields) path errors
      = applyToFields (.vobj ifields) rfields path errors := by
    rw [applyRulesRecursively]
  constructor
  · rw [h1]
    exact applyToFields_filter _ _ _ _
  · intro hall
    rw [h1, applyToFields_filter]
    rw [List.filter_eq_nil_iff.mpr (fun kv hkv => by simp [hall kv hkv])]
    rw [applyToFields]

/-- C5 witness: a rules object whose only key is neither an own key of the
input nor an inherited prototype member leaves the record untouched. -/
theorem object_rules_descend_present_keys_witness :
    applyRulesRecursively (.vobj [("a", .vnum 1)])
      (.robj [("b", .func (fun _ => .ok ["m"]))]) "$" [] = .ok [] :=
  (object_rules_descend_present_keys [("a", .vnum 1)]
    [("b", .func (fun _ => .ok ["m"]))] "$" []).2 (by decide)

/-- C5 counterexample: the input `{}` has no own keys, so the claim as
stated ("recursion descends exactly into rule keys that exist as own keys
of the input; rule keys absent from the input are silently skipped with no
error recorded") predicts that the rules object `{toString: rule}` records
nothing. The engine's `key in input` test also consults the prototype
chain (`'toString' in {}` is `true`), so it descends into the inherited
`Object.prototype.toString` and records the rule's message at
`$.toString`. -/
theorem object_rules_own_keys_counterexample :
    applyRulesRecursively (.vobj [])
        (.robj [("toString", .func (fun _ => .ok ["x"]))]) "$" []
      = .ok [("$.toString", ["x"])]
    ∧ applyRulesRecursively (.vobj [])
        (.robj [("toString", .func (fun _ => .ok ["x"]))]) "$" []
      ≠ .ok [] := by
  have h : applyRulesRecursively (.vobj [])
      (.robj [("toString", .func (fun _ => .ok ["x"]))]) "$" []
      = .ok [("$.toString", ["x"])] := by
    simp [applyRulesRecursively, applyToFields, Value.keyIn, Value.getKey,
      objectPrototypeKeys, addErrors]
  exact ⟨h, by rw [h]; simp⟩

/-- C6: an exception thrown by a leaf rule outside the assert channel makes
the dispatcher, and `validate` itself, reject with that exception; no
result is produced. -/
theorem rule_exception_rejects (input : Value) (rules : List RulesSet)
    (r : Rule) (e : String) (path : String) (errors : ErrorMap) :
    (r input = .exn e →
      applyRulesRecursively input (.func r) path errors = .error e)
    ∧ (runErrors input rules = .error e → validate input rules = .error e) := by
  constructor
  · intro hr
    rw [applyRulesRecursively, hr]
  · intro hre
    match rules with
    | [] => rw [runErrors] at hre; simp at hre
    | r0 :: rest => rw [validate, hre]

/-- C6 witness: a throwing rule at a concrete input. -/
theorem rule_exception_rejects_witness :
    applyRulesRecursively .vnull (.func (fun _ => .exn "boom")) "$" []
        = .error "boom"
    ∧ validate .vnull [.func (fun _ => .exn "boom")] = .error "boom" :=
  ⟨(rule_exception_rejects .vnull [.func (fun _ => .exn "boom")]
      (fun _ => .exn "boom") "boom" "$" []).1 rfl,
   (rule_exception_rejects .vnull [.func (fun _ => .exn "boom")]
      (fun _ => .exn "boom") "boom" "$" []).2
      (by simp [runErrors, applyRulesRecursively])⟩

/-- C7: on a failed validation, the flattened `errors.all` view enumerates
exactly the pairs of the path to messages mapping, with the right
multiplicity for every pair. -/
theorem errors_all_enumerates (input : Value) (rules : List RulesSet)
    (r : ValidationResult) (em : ErrorMap)
    (hv : validate input rules = .ok r) (he : r.errors = some em) :
    ∀ p m : String,
      (ErrorMap.all em).count (p, m) = ((List.lookup p em).getD []).count m := by
  obtain ⟨hre, _⟩ := validate_ok_some hv he
  exact count_all_of_nodup em (runErrors_goodMap hre).2

/-- C7 witness: the enumeration law at the failing example. -/
theorem errors_all_enumerates_witness :
    (ErrorMap.all [("$", ["too small"])]).count ("$", "too small")
      = ((List.lookup "$" [("$", ["too small"])]).getD []).count "too small" :=
  errors_all_enumerates (.vnum 3) [.func exampleRule] ⟨false, some [("$", ["too small"])]⟩
    [("$", ["too small"])]
    (by simp [validate, runErrors, applyRulesRecursively, exampleRule, assertRecord, addErrors])
    rfl "$" "too small"

/-- C8: a rules object applied to an input that is neither an array nor a
non-null keyed structure is a silent no-op: no recursion, no error
recorded, record returned unchanged. -/
theorem noop_on_unmatched_shape (input : Value)
    (fields : List (String × RulesSet)) (path : String) (errors : ErrorMap)
    (h : input.isPrimitiveOrNull = true) :
    applyRulesRecursively input (.robj fields) path errors = .ok errors := by
  cases input with
  | varr elems => simp [Value.isPrimitiveOrNull] at h
  | vobj ifields => simp [Value.isPrimitiveOrNull] at h
  | vnull => simp [applyRulesRecursively]
  | vundefined => simp [applyRulesRecursively]
  | vbool b => simp [applyRulesRecursively]
  | vnum n => simp [applyRulesRecursively]
  | vstr s => simp [applyRulesRecursively]
  | vnative name => simp [applyRulesRecursively]

/-- C8 witness: an `$each` rules object against `null` input. -/
theorem noop_on_unmatched_shape_witness :
    applyRulesRecursively .vnull
      (.robj [(eachKey, .func (fun _ => .ok ["m"]))]) "$" [] = .ok [] :=
  noop_on_unmatched_shape .vnull [(eachKey, .func (fun _ => .ok ["m"]))] "$" []
    (by decide)

/-- C10: every path present in a returned error map carries at least one
message, and a leaf rule with no failing assertions leaves the shared
record unchanged. -/
theorem error_map_entries_nonempty :
    (∀ (input : Value) (rules : List RulesSet) (r : ValidationResult)
        (em : ErrorMap), validate input rules = .ok r → r.errors = some em →
        ∀ e ∈ em, e.2 ≠ ([] : List String))
    ∧ (∀ (input : Value) (rl : Rule) (path : String) (errors : ErrorMap),
        rl input = .ok [] →
        applyRulesRecursively input (.func rl) path errors = .ok errors) := by
  constructor
  · intro input rules r em hv he
    obtain ⟨hre, _⟩ := validate_ok_some hv he
    exact (runErrors_goodMap hre).1
  · intro input rl path errors h
    rw [applyRulesRecursively, h]
    simp

/-- C10 witness: the invariant at the failing example, and a vacuous rule at
a concrete record. -/
theorem error_map_entries_nonempty_witness :
    (∀ e ∈ [("$", ["too small"])], e.2 ≠ ([] : List String))
    ∧ applyRulesRecursively .vnull (.func (fun _ => .ok [])) "$" [("p", ["m"])]
        = .ok [("p", ["m"])] :=
  ⟨error_map_entries_nonempty.1 (.vnum 3) [.func exampleRule]
      ⟨false, some [("$", ["too small"])]⟩ [("$", ["too small"])]
      (by simp [validate, runErrors, applyRulesRecursively, exampleRule, assertRecord, addErrors])
      rfl,
   error_map_entries_nonempty.2 .vnull (fun _ => .ok []) "$" [("p", ["m"])] rfl⟩
